import Mathlib

/-!
Shallow embedding of the Core Web Vitals consolidation pipeline of
`src/streamlit_app.py`, and proofs about it.

The pipeline state is the history store: the directory `history/` holding one
tab-separated file per canonical date, named `<date>_cwv_report.txt`.  We model
it as an association list from the date key to the rows persisted in that
date's file (the enumeration order of `os.listdir` is unspecified; the list
order stands for that enumeration order).  Metric values are modelled as
rationals; the raw report is modelled at the point after the `Date` column has
been normalized to canonical `YYYY-MM-DD` strings (lines 30-32), since every
claim under study is about the grouping, persistence, merge and aggregation
logic that follows the normalization.
-/

/-- One parsed row of a report: one (date, URL, device) observation with its
three Core Web Vitals scores (columns `Date, URL, Device, INP, CLS, LCP`). -/
structure RawRow where
  date : String
  url : String
  device : String
  inp : ℚ
  cls : ℚ
  lcp : ℚ
deriving DecidableEq, Repr

/-- The history store: one entry per persisted date file, keyed by the
canonical date string (file `<date>_cwv_report.txt` holds the slice). -/
abbrev Store := List (String × List RawRow)

/-- Failure outcomes of the pipeline, one constructor per Python exception
site: `fileNotFound` is `pd.read_csv` on a missing `cwv_report.txt` (line 30),
`noDataError` is `max()` over an empty file list (line 56), `parseError` is
`pd.read_csv` failing on a corrupt slice file (line 47), `keyError` is a
DataFrame aggregation over a column the frame does not have (line 304). -/
inductive Err where
  | fileNotFound
  | noDataError
  | parseError
  | keyError
deriving DecidableEq, Repr

/-- Does the store already hold a slice for date `d`?  This is the
`os.path.exists(history_file)` test of line 37. -/
def storeHasDate (s : Store) (d : String) : Bool :=
  s.any (fun p => p.1 = d)

/-- The rows of the slice file for date `d` (empty if no such file):
`pd.read_csv` of the file named by `d` (lines 47, 57). -/
def sliceFor (s : Store) (d : String) : List RawRow :=
  match s.find? (fun p => p.1 = d) with
  | some p => p.2
  | none => []

/-- All entries of the store whose key is `d` (used to state that an existing
date's archive is neither replaced nor duplicated). -/
def slicesFor (s : Store) (d : String) : Store :=
  s.filter (fun p => p.1 = d)

/-- First-occurrence deduplication (worker: `seen` holds the values already
emitted). -/
def uniqFirstAux (seen : List String) : List String → List String
  | [] => []
  | a :: l => if a ∈ seen then uniqFirstAux seen l else a :: uniqFirstAux (a :: seen) l

/-- First-occurrence deduplication, the order in which `pandas.Series.unique`
returns the distinct values of the `Date` column (line 34). -/
def uniqFirst (l : List String) : List String :=
  uniqFirstAux [] l

/-- `consolidated_df['Date'].unique()` (line 34). -/
def uniqueDates (rows : List RawRow) : List String :=
  uniqFirst (rows.map (fun r => r.date))

/-- One iteration of the archiving loop (lines 35-38): write the date's slice
verbatim if and only if no file for that date exists yet. -/
def archiveStep (rows : List RawRow) (s : Store) (d : String) : Store :=
  if storeHasDate s d then s
  else s ++ [(d, rows.filter (fun r => r.date = d))]

/-- `process_consolidated_file` (lines 29-40), acting on the history store:
group the (already normalized) report rows by date and persist each group
under its date key unless a slice for that date already exists. -/
def process_consolidated_file (store : Store) (rows : List RawRow) : Store :=
  (uniqueDates rows).foldl (archiveStep rows) store

/-- Concatenation of every slice in the store, in enumeration order: the
`pd.concat(all_data)` of line 50. -/
def flatRows (s : Store) : List RawRow :=
  (s.map (fun p => p.2)).flatten

/-- The read-back part of `load_historical_data` (lines 44-51): read every
slice file, concatenate; `None` (the explicit no-data signal) if there are no
files. -/
def loadAllCore (s : Store) : Option (List RawRow) :=
  if s.isEmpty then none else some (flatRows s)

/-- The greatest date key in the store, `max(history_files)` of line 56 (the
file names share the fixed-length suffix and canonical 10-character date
stems, so the lexicographic max over file names is the max over date keys).
`none` when there are no files. -/
def maxDate (s : Store) : Option String :=
  s.foldl
    (fun acc p =>
      match acc with
      | none => some p.1
      | some m => some (max m p.1))
    none

/-- Row-level pass flag, `(INP>=75) & (CLS>=75) & (LCP>=75)` (line 58). -/
def rowAllGreen (r : RawRow) : Bool :=
  decide (75 ≤ r.inp) && decide (75 ≤ r.cls) && decide (75 ≤ r.lcp)

/-- The read-back part of `load_current_data` (lines 55-59): pick the latest
slice and tag each of its rows with `all_green`; the `max()` of an empty file
list raises (modelled as `noDataError`, the empty-history failure). -/
def latestCore (s : Store) : Except Err (List (RawRow × Bool)) :=
  match maxDate s with
  | none => .error .noDataError
  | some d => .ok ((sliceFor s d).map (fun r => (r, rowAllGreen r)))

/-- `load_historical_data` (lines 42-51) with its side effect made explicit:
the raw report file is `none` when absent (`pd.read_csv` then raises, line
30); otherwise the report is archived first and the store re-read.  Returns
the result together with the store left behind. -/
def load_historical_dataS (store : Store) (report : Option (List RawRow)) :
    Except Err (Option (List RawRow)) × Store :=
  match report with
  | none => (.error .fileNotFound, store)
  | some rows =>
    (Except.ok (loadAllCore (process_consolidated_file store rows)),
     process_consolidated_file store rows)

/-- `load_current_data` (lines 53-59) with its side effect made explicit,
analogous to `load_historical_dataS`. -/
def load_current_dataS (store : Store) (report : Option (List RawRow)) :
    Except Err (List (RawRow × Bool)) × Store :=
  match report with
  | none => (.error .fileNotFound, store)
  | some rows =>
    (latestCore (process_consolidated_file store rows),
     process_consolidated_file store rows)

/-! ### String order

Python compares strings lexicographically by code point; that order drives
`max(history_files)` (line 56), `df['Date'].max()` (line 185) and the URL sort
key (line 227).  We model it directly on the character data. -/

/-- Code-point lexicographic strict order on character lists. -/
def charsLt : List Char → List Char → Bool
  | [], [] => false
  | [], _ :: _ => true
  | _ :: _, [] => false
  | a :: as, b :: bs =>
    if a.toNat < b.toNat then true
    else if b.toNat < a.toNat then false
    else charsLt as bs

/-- Python's `<` on strings. -/
def strLt (a b : String) : Bool :=
  charsLt a.data b.data

/-- Python's `<=` on strings. -/
def strLE (a b : String) : Bool :=
  !strLt b a

/-! ### Device merger (Tab 1, lines 184-227) -/

/-- Lexicographic maximum of a list of strings, `none` on the empty list
(Python's `max`, which raises there). -/
def maxString (l : List String) : Option String :=
  l.foldl
    (fun acc x =>
      match acc with
      | none => some x
      | some m => some (if strLE m x then x else m))
    none

/-- `df['Date'].max()` (line 185). -/
def latest_date (rows : List RawRow) : Option String :=
  maxString (rows.map (fun r => r.date))

/-- `desktop_data` (lines 188-191): the latest-date desktop subset of the
frame, to be indexed by URL. -/
def desktop_data (rows : List RawRow) : List RawRow :=
  match latest_date rows with
  | none => []
  | some dm => rows.filter (fun r => r.date = dm ∧ r.device = "desktop")

/-- `mobile_data` (lines 194-197): the latest-date mobile subset. -/
def mobile_data (rows : List RawRow) : List RawRow :=
  match latest_date rows with
  | none => []
  | some dm => rows.filter (fun r => r.date = dm ∧ r.device = "mobile")

/-- One row of the outer merge (line 201): a URL with each device's metric
columns, absent (`NaN`) when that device has no row for the URL. -/
structure MergedRow where
  url : String
  desktop_inp : Option ℚ
  desktop_cls : Option ℚ
  desktop_lcp : Option ℚ
  mobile_inp : Option ℚ
  mobile_cls : Option ℚ
  mobile_lcp : Option ℚ
deriving DecidableEq, Repr

/-- Merged row for a URL present only in the desktop subset. -/
def mkDesktopOnly (dr : RawRow) : MergedRow :=
  ⟨dr.url, some dr.inp, some dr.cls, some dr.lcp, none, none, none⟩

/-- Merged row for a URL present in both subsets. -/
def mkBoth (dr mr : RawRow) : MergedRow :=
  ⟨dr.url, some dr.inp, some dr.cls, some dr.lcp, some mr.inp, some mr.cls, some mr.lcp⟩

/-- Merged row for a URL present only in the mobile subset. -/
def mkMobileOnly (mr : RawRow) : MergedRow :=
  ⟨mr.url, none, none, none, some mr.inp, some mr.cls, some mr.lcp⟩

/-- `pd.merge(desktop_data, mobile_data, left_index=True, right_index=True,
how='outer')` (line 201): a full outer join on URL.  Each desktop row is
paired with every mobile row of the same URL (with the mobile columns absent
when there is none), then the mobile rows whose URL has no desktop row are
appended.  Row order is irrelevant downstream: line 227 re-sorts. -/
def mergeOuter (des mob : List RawRow) : List MergedRow :=
  (des.map
      (fun dr =>
        if (mob.filter (fun mr => mr.url = dr.url)).isEmpty then [mkDesktopOnly dr]
        else (mob.filter (fun mr => mr.url = dr.url)).map (fun mr => mkBoth dr mr))).flatten
    ++ (mob.filter (fun mr => !des.any (fun dr => dr.url = mr.url))).map mkMobileOnly

/-- The merged frame `merged_df` of line 201, built from an input slice. -/
def mergedRecords (rows : List RawRow) : List MergedRow :=
  mergeOuter (desktop_data rows) (mobile_data rows)

/-- An absent metric (`NaN`) compares as `False` against the threshold, as in
pandas. -/
def geOpt (x : Option ℚ) : Bool :=
  match x with
  | none => false
  | some v => decide (75 ≤ v)

/-- The `all_green` column of the merged frame (lines 204-211): the
conjunction of the six `>= 75` comparisons, `False` whenever a metric is
absent. -/
def all_green (m : MergedRow) : Bool :=
  geOpt m.desktop_inp && geOpt m.desktop_cls && geOpt m.desktop_lcp &&
    geOpt m.mobile_inp && geOpt m.mobile_cls && geOpt m.mobile_lcp

/-- Primary sort key of line 227: `all_green` sorted descending means the
`True` rows rank before the `False` rows. -/
def greenRank (m : MergedRow) : Nat :=
  if all_green m then 0 else 1

/-- The order of `merged_df.sort_values(['all_green', 'URL'],
ascending=[False, True])` (line 227): `all_green` descending, URL ascending
within equal status. -/
def mergedLE (a b : MergedRow) : Prop :=
  greenRank a < greenRank b ∨ (greenRank a = greenRank b ∧ strLE a.url b.url = true)

instance : DecidableRel mergedLE := fun a b => by
  unfold mergedLE
  infer_instance

/-- Line 227: the sorted merged frame. -/
def sortMerged (rows : List RawRow) : List MergedRow :=
  List.insertionSort mergedLE (mergedRecords rows)

/-! ### Aggregator (lines 141-148 and 304-309) -/

/-- `Series.mean()` over rationals. -/
def meanQ (xs : List ℚ) : ℚ :=
  xs.sum / (xs.length : ℚ)

/-- `(df[metric] >= 75).mean() * 100` (lines 144-146): the mean of the 0/1
indicator of the threshold, as a percentage. -/
def passRateOf (rows : List RawRow) (f : RawRow → ℚ) : ℚ :=
  meanQ (rows.map (fun r => if 75 ≤ f r then (1 : ℚ) else 0)) * 100

/-- `metrics_data` (lines 141-148): the per-metric pass rates of a slice. -/
def metrics_data (rows : List RawRow) : List (String × ℚ) :=
  [("INP", passRateOf rows (fun r => r.inp)),
   ("CLS", passRateOf rows (fun r => r.cls)),
   ("LCP", passRateOf rows (fun r => r.lcp))]

/-- Ascending sort of date keys, the key order `DataFrame.groupby` produces. -/
def sortStrings (l : List String) : List String :=
  List.insertionSort (fun a b : String => strLE a b = true) l

/-- A row of the loaded historical frame: the parsed columns together with the
value of the frame's `all_green` column, which is `none` when the frame has no
such column. -/
abbrev HistRow := RawRow × Option Bool

/-- `load_historical_data`'s frames come verbatim from the archived files,
which `process_consolidated_file` writes with the consolidated report's
columns `Date, URL, Device, INP, CLS, LCP` only (the history-store schema of
the external-interface contract) — so no loaded row carries an `all_green`
value. -/
def historicalFrameRows (s : Store) : List HistRow :=
  (flatRows s).map (fun r => (r, none))

/-- `daily_metrics` (lines 304-309):
`historical_df.groupby('Date').agg({'all_green': lambda x: sum(x)/len(x)*100,
'INP': 'mean', 'CLS': 'mean', 'LCP': 'mean'})`.  Aggregating a column the
frame does not have raises `KeyError`; otherwise each date group yields its
`all_green` rate as a percentage and the three metric means, with the group
keys in ascending date order. -/
def daily_metrics (rows : List HistRow) : Except Err (List (String × ℚ × ℚ × ℚ × ℚ)) :=
  if rows.all (fun p => p.2.isSome) then
    Except.ok
      ((sortStrings (uniqFirst (rows.map (fun p => p.1.date)))).map
        (fun d =>
          (d,
           meanQ ((rows.filter (fun p => p.1.date = d)).map
               (fun p => if p.2.getD false then (1 : ℚ) else 0)) * 100,
           meanQ ((rows.filter (fun p => p.1.date = d)).map (fun p => p.1.inp)),
           meanQ ((rows.filter (fun p => p.1.date = d)).map (fun p => p.1.cls)),
           meanQ ((rows.filter (fun p => p.1.date = d)).map (fun p => p.1.lcp)))))
  else Except.error .keyError

/-! ### Fault-injected variants (for the error-isolation policy)

The source has no exception handling around the per-date writes (lines 34-38)
or the per-file reads (lines 45-48); a raised exception propagates and aborts
the enclosing loop.  The two variants below are the same loops with an
explicit fault model: `wfails d` says the write of date `d`'s slice raises,
`pfails d` says the read of date `d`'s file raises. -/

/-- The archiving loop of lines 34-38 under the write-fault model: a failing
write aborts the loop, leaving the store as accumulated so far and reporting
the failing date. -/
def processFGo (rows : List RawRow) (wfails : String → Bool) :
    List String → Store → Store × Option String
  | [], s => (s, none)
  | d :: ds, s =>
    if storeHasDate s d then processFGo rows wfails ds s
    else if wfails d then (s, some d)
    else processFGo rows wfails ds (s ++ [(d, rows.filter (fun r => r.date = d))])

/-- `process_consolidated_file` under the write-fault model. -/
def process_consolidated_fileF (store : Store) (rows : List RawRow)
    (wfails : String → Bool) : Store × Option String :=
  processFGo rows wfails (uniqueDates rows) store

/-- The reading loop of lines 44-51 under the read-fault model: a failing
`pd.read_csv` aborts the whole load. -/
def loadFGo (pfails : String → Bool) :
    Store → List (List RawRow) → Except Err (Option (List RawRow))
  | [], acc => .ok (if acc.isEmpty then none else some acc.flatten)
  | p :: rest, acc =>
    if pfails p.1 then .error .parseError else loadFGo pfails rest (acc ++ [p.2])

/-- The read-back part of `load_historical_data` under the read-fault model. -/
def load_historical_dataF (store : Store) (pfails : String → Bool) :
    Except Err (Option (List RawRow)) :=
  loadFGo pfails store []

/-- Row constructor shorthand for concrete instances. -/
def exRow (d u dev : String) (i c l : ℚ) : RawRow := ⟨d, u, dev, i, c, l⟩

/-- A concrete one-date slice with one failing URL (`a.com`) and one passing
URL (`b.com`), each with both device rows. -/
def mixedSlice : List RawRow :=
  [exRow "2024-01-01" "a.com" "desktop" 10 10 10,
   exRow "2024-01-01" "a.com" "mobile" 10 10 10,
   exRow "2024-01-01" "b.com" "desktop" 80 80 80,
   exRow "2024-01-01" "b.com" "mobile" 80 80 80]

/-! ### Basic facts about the archiver -/

theorem mem_uniqFirstAux (l : List String) :
    ∀ (seen : List String) (a : String),
      a ∈ uniqFirstAux seen l ↔ a ∈ l ∧ a ∉ seen := by
  induction l with
  | nil => intro seen a; simp [uniqFirstAux]
  | cons b l ih =>
    intro seen a
    simp only [uniqFirstAux]
    by_cases hb : b ∈ seen
    · rw [if_pos hb, ih]
      constructor
      · rintro ⟨h1, h2⟩
        exact ⟨List.mem_cons_of_mem _ h1, h2⟩
      · rintro ⟨h1, h2⟩
        rcases List.mem_cons.mp h1 with rfl | h1
        · exact absurd hb h2
        · exact ⟨h1, h2⟩
    · rw [if_neg hb]
      constructor
      · intro h
        rcases List.mem_cons.mp h with rfl | h
        · exact ⟨List.mem_cons_self _ _, hb⟩
        · rw [ih] at h
          obtain ⟨h1, h2⟩ := h
          refine ⟨List.mem_cons_of_mem _ h1, fun hs => h2 ?_⟩
          exact List.mem_cons_of_mem _ hs
      · rintro ⟨h1, h2⟩
        rcases List.mem_cons.mp h1 with rfl | h1
        · exact List.mem_cons_self _ _
        · by_cases hab : a = b
          · subst hab
            exact List.mem_cons_self _ _
          · refine List.mem_cons_of_mem _ ?_
            rw [ih]
            refine ⟨h1, fun hs => ?_⟩
            rcases List.mem_cons.mp hs with h | h
            · exact hab h
            · exact h2 h

theorem nodup_uniqFirstAux (l : List String) :
    ∀ seen : List String, (uniqFirstAux seen l).Nodup := by
  induction l with
  | nil => intro seen; simp [uniqFirstAux]
  | cons b l ih =>
    intro seen
    simp only [uniqFirstAux]
    by_cases hb : b ∈ seen
    · rw [if_pos hb]; exact ih seen
    · rw [if_neg hb]
      refine List.nodup_cons.mpr ⟨?_, ih _⟩
      rw [mem_uniqFirstAux]
      rintro ⟨_, h2⟩
      exact h2 (List.mem_cons_self _ _)

theorem mem_uniqueDates (rows : List RawRow) (d : String) :
    d ∈ uniqueDates rows ↔ ∃ r ∈ rows, r.date = d := by
  unfold uniqueDates uniqFirst
  rw [mem_uniqFirstAux]
  simp [List.mem_map]

theorem nodup_uniqueDates (rows : List RawRow) : (uniqueDates rows).Nodup :=
  nodup_uniqFirstAux _ _

theorem storeHasDate_append (s t : Store) (d : String) :
    storeHasDate (s ++ t) d = (storeHasDate s d || storeHasDate t d) := by
  simp [storeHasDate, List.any_append]

theorem storeHasDate_archiveStep_of (rows : List RawRow) (s : Store) (d d' : String)
    (h : storeHasDate s d = true) : storeHasDate (archiveStep rows s d') d = true := by
  unfold archiveStep
  split
  · exact h
  · rw [storeHasDate_append, h, Bool.true_or]

theorem storeHasDate_archiveStep_self (rows : List RawRow) (s : Store) (d : String) :
    storeHasDate (archiveStep rows s d) d = true := by
  unfold archiveStep
  split
  next h => exact h
  next h => rw [storeHasDate_append, Bool.or_eq_true]; right; simp [storeHasDate]

theorem storeHasDate_foldl_of (rows : List RawRow) (ds : List String) (s : Store) (d : String)
    (h : storeHasDate s d = true) :
    storeHasDate (ds.foldl (archiveStep rows) s) d = true := by
  induction ds generalizing s with
  | nil => exact h
  | cons d' ds ih =>
    simp only [List.foldl_cons]
    exact ih _ (storeHasDate_archiveStep_of rows s d d' h)

theorem storeHasDate_foldl_self (rows : List RawRow) (ds : List String) (s : Store) (d : String)
    (h : d ∈ ds) : storeHasDate (ds.foldl (archiveStep rows) s) d = true := by
  induction ds generalizing s with
  | nil => cases h
  | cons d' ds ih =>
    simp only [List.foldl_cons]
    rcases List.mem_cons.mp h with rfl | h
    · exact storeHasDate_foldl_of rows ds _ d (storeHasDate_archiveStep_self rows s d)
    · exact ih _ h

theorem foldl_archiveStep_id (rows : List RawRow) (ds : List String) (s : Store)
    (h : ∀ d ∈ ds, storeHasDate s d = true) :
    ds.foldl (archiveStep rows) s = s := by
  induction ds with
  | nil => rfl
  | cons d ds ih =>
    simp only [List.foldl_cons]
    have hs : archiveStep rows s d = s := by
      unfold archiveStep
      rw [if_pos (h d (List.mem_cons_self _ _))]
    rw [hs]
    exact ih (fun d' hd' => h d' (List.mem_cons_of_mem _ hd'))

theorem slicesFor_archiveStep (rows : List RawRow) (s : Store) (d d' : String)
    (h : storeHasDate s d = true) :
    slicesFor (archiveStep rows s d') d = slicesFor s d := by
  unfold archiveStep
  split
  · rfl
  next hno =>
    unfold slicesFor
    rw [List.filter_append]
    have hne : d' ≠ d := by
      rintro rfl
      exact hno h
    simp [hne]

theorem slicesFor_foldl_of_has (rows : List RawRow) (ds : List String) (s : Store) (d : String)
    (h : storeHasDate s d = true) :
    slicesFor (ds.foldl (archiveStep rows) s) d = slicesFor s d := by
  induction ds generalizing s with
  | nil => rfl
  | cons d' ds ih =>
    simp only [List.foldl_cons]
    rw [ih _ (storeHasDate_archiveStep_of rows s d d' h),
      slicesFor_archiveStep rows s d d' h]

theorem foldl_archiveStep_fresh (rows : List RawRow) (ds : List String) (s : Store)
    (hnd : ds.Nodup) (h : ∀ d ∈ ds, storeHasDate s d = false) :
    ds.foldl (archiveStep rows) s =
      s ++ ds.map (fun d => (d, rows.filter (fun r => r.date = d))) := by
  induction ds generalizing s with
  | nil => simp
  | cons d ds ih =>
    simp only [List.foldl_cons, List.map_cons]
    have hd : storeHasDate s d = false := h d (List.mem_cons_self _ _)
    have hstep : archiveStep rows s d = s ++ [(d, rows.filter (fun r => r.date = d))] := by
      unfold archiveStep
      rw [if_neg (by rw [hd]; exact Bool.false_ne_true)]
    rw [hstep, ih _ hnd.of_cons ?later]
    · rw [List.append_assoc]
      rfl
    case later =>
      intro d' hd'
      rw [storeHasDate_append]
      have h1 : storeHasDate s d' = false := h d' (List.mem_cons_of_mem _ hd')
      have h2 : storeHasDate [(d, rows.filter (fun r => r.date = d))] d' = false := by
        have hne : d ≠ d' := by
          rintro rfl
          exact (List.nodup_cons.mp hnd).1 hd'
        simp [storeHasDate, hne]
      rw [h1, h2]
      rfl

theorem process_consolidated_file_empty (rows : List RawRow) :
    process_consolidated_file [] rows =
      (uniqueDates rows).map (fun d => (d, rows.filter (fun r => r.date = d))) := by
  unfold process_consolidated_file
  rw [foldl_archiveStep_fresh rows _ [] (nodup_uniqueDates rows) (fun d _ => rfl)]
  rfl

theorem flatten_filter_date (rows : List RawRow) (d : String) (ds : List String)
    (hnd : ds.Nodup) :
    ((ds.map (fun d' => rows.filter (fun r => r.date = d'))).flatten).filter
        (fun r => r.date = d) =
      if d ∈ ds then rows.filter (fun r => r.date = d) else [] := by
  induction ds with
  | nil => simp
  | cons d' ds ih =>
    simp only [List.map_cons, List.flatten_cons, List.filter_append]
    rw [ih hnd.of_cons]
    by_cases hdd : d' = d
    · subst hdd
      have hnot : d' ∉ ds := (List.nodup_cons.mp hnd).1
      rw [if_neg hnot, if_pos (List.mem_cons_self _ _), List.filter_filter]
      simp
    · have h1 : (rows.filter (fun r => r.date = d')).filter (fun r => r.date = d) = [] := by
        rw [List.filter_eq_nil_iff]
        intro a ha
        have h2 := List.of_mem_filter ha
        simp only [decide_eq_true_eq] at h2
        simp [h2, hdd]
      rw [h1]
      simp only [List.nil_append]
      by_cases hmem : d ∈ ds
      · rw [if_pos hmem, if_pos (List.mem_cons_of_mem _ hmem)]
      · have hnotc : d ∉ d' :: ds := by
          intro hc
          rcases List.mem_cons.mp hc with rfl | hc
          · exact hdd rfl
          · exact hmem hc
        rw [if_neg hmem, if_neg hnotc]

/-- C1: archiving is idempotent and write-once.  Running
`process_consolidated_file` a second time with the same report leaves the
history store exactly as one run does, and any date whose slice already
exists keeps exactly its store entries on any run (same or overlapping
report): the existing slice is never mutated, overwritten, or duplicated. -/
theorem archive_idempotent_write_once (store : Store) (rows : List RawRow) :
    process_consolidated_file (process_consolidated_file store rows) rows =
        process_consolidated_file store rows ∧
      ∀ d, storeHasDate store d = true →
        slicesFor (process_consolidated_file store rows) d = slicesFor store d := by
  constructor
  · unfold process_consolidated_file
    apply foldl_archiveStep_id
    intro d hd
    exact storeHasDate_foldl_self rows _ store d hd
  · intro d _
    exact slicesFor_foldl_of_has rows _ store d (by assumption)

/-- Witness for `archive_idempotent_write_once`: a store already holding the
2024-01-01 slice, re-archived from an overlapping report, keeps that slice
untouched. -/
theorem archive_idempotent_write_once_witness :
    storeHasDate [("2024-01-01", [exRow "2024-01-01" "a.com" "desktop" 80 80 80])]
        "2024-01-01" = true ∧
      slicesFor
          (process_consolidated_file
            [("2024-01-01", [exRow "2024-01-01" "a.com" "desktop" 80 80 80])]
            [exRow "2024-01-01" "a.com" "desktop" 10 10 10,
             exRow "2024-01-02" "b.com" "mobile" 90 90 90])
          "2024-01-01" =
        slicesFor [("2024-01-01", [exRow "2024-01-01" "a.com" "desktop" 80 80 80])]
          "2024-01-01" :=
  ⟨by decide,
   (archive_idempotent_write_once
      [("2024-01-01", [exRow "2024-01-01" "a.com" "desktop" 80 80 80])]
      [exRow "2024-01-01" "a.com" "desktop" 10 10 10,
       exRow "2024-01-02" "b.com" "mobile" 90 90 90]).2
     "2024-01-01" (by decide)⟩

/-- C2: round-trip.  Archiving a raw report into an empty history store and
loading all history back yields, for each date, exactly the report's rows for
that date. -/
theorem archive_load_roundtrip (rows : List RawRow) (d : String) :
    ∃ o, (load_historical_dataS [] (some rows)).1 = Except.ok o ∧
      (o.getD []).filter (fun r => r.date = d) = rows.filter (fun r => r.date = d) := by
  refine ⟨loadAllCore (process_consolidated_file [] rows), rfl, ?_⟩
  rw [process_consolidated_file_empty]
  unfold loadAllCore flatRows
  by_cases hempty : (uniqueDates rows).map
      (fun d => (d, rows.filter (fun r => r.date = d))) = []
  · rw [hempty]
    simp only [List.isEmpty_nil, if_pos, Option.getD_none, List.filter_nil]
    rw [List.map_eq_nil_iff] at hempty
    have : rows.filter (fun r => r.date = d) = [] := by
      rw [List.filter_eq_nil_iff]
      intro a ha
      have : a.date ∈ uniqueDates rows := (mem_uniqueDates rows a.date).mpr ⟨a, ha, rfl⟩
      rw [hempty] at this
      cases this
    rw [this]
  · rw [if_neg (by simpa [List.isEmpty_iff] using hempty)]
    simp only [Option.getD_some]
    rw [List.map_map]
    have hmm :
        ((uniqueDates rows).map
            ((fun p : String × List RawRow => p.2) ∘
              fun d => (d, rows.filter (fun r => r.date = d)))) =
          (uniqueDates rows).map (fun d' => rows.filter (fun r => r.date = d')) := rfl
    rw [hmm, flatten_filter_date rows d _ (nodup_uniqueDates rows)]
    by_cases hd : d ∈ uniqueDates rows
    · rw [if_pos hd]
    · rw [if_neg hd]
      have : rows.filter (fun r => r.date = d) = [] := by
        rw [List.filter_eq_nil_iff]
        intro a ha
        have hmem : a.date ∈ uniqueDates rows := (mem_uniqueDates rows a.date).mpr ⟨a, ha, rfl⟩
        intro hdec
        rw [decide_eq_true_eq] at hdec
        rw [hdec] at hmem
        exact hd hmem
      rw [this]

/-- C5: on an empty history store the loader's read-back returns the explicit
no-data signal (`None`, not a failure), and the snapshot selector fails with
the empty-history error (`noDataError`) and with no other failure mode; the
same holds for the full entry points when the raw report archives nothing. -/
theorem empty_store_loader_and_selector :
    loadAllCore [] = none ∧
      latestCore [] = Except.error Err.noDataError ∧
      (load_historical_dataS [] (some [])).1 = Except.ok none ∧
      (load_current_dataS [] (some [])).1 = Except.error Err.noDataError :=
  ⟨rfl, rfl, rfl, rfl⟩

/-- C10: loading is not a pure read.  Both loaders first run the archiver on
the raw report file: when that file is absent they fail with the file-read
error even if the store already holds slices, and when it is present the
store they leave behind is exactly the archiver's output on it. -/
theorem loaders_run_archiver_and_need_report (store : Store) :
    (load_historical_dataS store none).1 = Except.error Err.fileNotFound ∧
      (load_current_dataS store none).1 = Except.error Err.fileNotFound ∧
      (∀ rows,
        (load_historical_dataS store (some rows)).2 =
            process_consolidated_file store rows ∧
          (load_current_dataS store (some rows)).2 =
            process_consolidated_file store rows) ∧
      (load_historical_dataS [] (some [exRow "2024-01-01" "a.com" "desktop" 80 80 80])).2 =
        [("2024-01-01", [exRow "2024-01-01" "a.com" "desktop" 80 80 80])] :=
  ⟨rfl, rfl, fun _ => ⟨rfl, rfl⟩, by decide⟩

/-! ### Pass-rate facts -/

theorem sum_indicator_eq_count (rows : List RawRow) (f : RawRow → ℚ) :
    (rows.map (fun r => if 75 ≤ f r then (1 : ℚ) else 0)).sum =
      ((rows.filter (fun r => 75 ≤ f r)).length : ℚ) := by
  induction rows with
  | nil => simp
  | cons r rows ih =>
    simp only [List.map_cons, List.sum_cons, ih, List.filter_cons, decide_eq_true_eq]
    by_cases h : 75 ≤ f r
    · rw [if_pos h, if_pos h, List.length_cons]
      push_cast
      ring
    · rw [if_neg h, if_neg h, zero_add]

theorem passRateOf_eq_count_div (rows : List RawRow) (f : RawRow → ℚ) :
    passRateOf rows f =
      ((rows.filter (fun r => 75 ≤ f r)).length : ℚ) / (rows.length : ℚ) * 100 := by
  unfold passRateOf meanQ
  rw [sum_indicator_eq_count, List.length_map]

theorem passRateOf_mem_Icc (rows : List RawRow) (f : RawRow → ℚ) (h : rows ≠ []) :
    0 ≤ passRateOf rows f ∧ passRateOf rows f ≤ 100 := by
  have hlen : 0 < (rows.length : ℚ) := by
    have := List.length_pos.mpr h
    exact_mod_cast this
  rw [passRateOf_eq_count_div rows f]
  constructor
  · positivity
  · have hc : ((rows.filter (fun r => 75 ≤ f r)).length : ℚ) ≤ (rows.length : ℚ) := by
      exact_mod_cast List.length_filter_le _ _
    have h1 : ((rows.filter (fun r => 75 ≤ f r)).length : ℚ) / (rows.length : ℚ) ≤ 1 :=
      (div_le_one hlen).mpr hc
    linarith

/-- C6: for every non-empty slice, the per-metric pass rates of lines 141-148
are exactly `(count where metric >= 75) / total * 100`, independently per
metric, and each lies in `[0, 100]`; on the two-row scenario (desktop INP 80,
mobile INP 60) the INP rate is exactly 50. -/
theorem metrics_data_passrates (rows : List RawRow) (h : rows ≠ []) :
    metrics_data rows =
        [("INP", ((rows.filter (fun r => 75 ≤ r.inp)).length : ℚ) / (rows.length : ℚ) * 100),
         ("CLS", ((rows.filter (fun r => 75 ≤ r.cls)).length : ℚ) / (rows.length : ℚ) * 100),
         ("LCP", ((rows.filter (fun r => 75 ≤ r.lcp)).length : ℚ) / (rows.length : ℚ) * 100)] ∧
      (∀ pr ∈ metrics_data rows, 0 ≤ pr.2 ∧ pr.2 ≤ 100) ∧
      metrics_data [exRow "2024-01-01" "a.com" "desktop" 80 80 80,
                    exRow "2024-01-01" "a.com" "mobile" 60 90 90] =
        [("INP", 50), ("CLS", 100), ("LCP", 100)] := by
  refine ⟨?_, ?_, ?_⟩
  · unfold metrics_data
    rw [passRateOf_eq_count_div rows fun r => r.inp,
      passRateOf_eq_count_div rows fun r => r.cls,
      passRateOf_eq_count_div rows fun r => r.lcp]
  · intro pr hpr
    unfold metrics_data at hpr
    rcases List.mem_cons.mp hpr with rfl | hpr
    · exact passRateOf_mem_Icc rows _ h
    rcases List.mem_cons.mp hpr with rfl | hpr
    · exact passRateOf_mem_Icc rows _ h
    rcases List.mem_cons.mp hpr with rfl | hpr
    · exact passRateOf_mem_Icc rows _ h
    · cases hpr
  · simp [metrics_data, passRateOf, meanQ, exRow]
    norm_num

/-- Witness for `metrics_data_passrates`: the spec's concrete scenario. -/
theorem metrics_data_passrates_witness :
    metrics_data [exRow "2024-01-01" "a.com" "desktop" 80 80 80,
                  exRow "2024-01-01" "a.com" "mobile" 60 90 90] =
      [("INP", 50), ("CLS", 100), ("LCP", 100)] :=
  (metrics_data_passrates
      [exRow "2024-01-01" "a.com" "desktop" 80 80 80,
       exRow "2024-01-01" "a.com" "mobile" 60 90 90] (by simp)).2.2

/-- C7 (code bug): the trend aggregation of lines 304-309 asks the loaded
historical frame for its `all_green` column, but `load_historical_data`
returns frames read back from the archived files, which carry only the report
columns — `all_green` is computed in `load_current_data` only (line 58) and is
never persisted.  On any non-empty loaded history the aggregation therefore
raises `KeyError` instead of returning the per-date trend series the spec
describes. -/
theorem daily_metrics_keyerror_on_history (store : Store) (h : flatRows store ≠ []) :
    daily_metrics (historicalFrameRows store) = Except.error Err.keyError := by
  unfold daily_metrics
  rw [if_neg ?cond]
  case cond =>
    intro hall
    obtain ⟨r, hr⟩ : ∃ r, r ∈ flatRows store := by
      cases hflat : flatRows store with
      | nil => exact absurd hflat h
      | cons a l => exact ⟨a, List.mem_cons_self _ _⟩
    have hmem : ((r, (none : Option Bool)) : HistRow) ∈ historicalFrameRows store := by
      unfold historicalFrameRows
      exact List.mem_map_of_mem _ hr
    have := List.all_eq_true.mp hall _ hmem
    simp at this

/-- Witness for `daily_metrics_keyerror_on_history`: one archived slice with
one row. -/
theorem daily_metrics_keyerror_on_history_witness :
    daily_metrics (historicalFrameRows
        [("2024-01-01", [exRow "2024-01-01" "a.com" "desktop" 80 80 80])]) =
      Except.error Err.keyError :=
  daily_metrics_keyerror_on_history
    [("2024-01-01", [exRow "2024-01-01" "a.com" "desktop" 80 80 80])] (by decide)

/-! ### Merge structure -/

theorem mem_mergeOuter_shape (des mob : List RawRow) (m : MergedRow)
    (hm : m ∈ mergeOuter des mob) :
    (∃ dr mr, dr ∈ des ∧ mr ∈ mob ∧ m = mkBoth dr mr) ∨
      (∃ dr, dr ∈ des ∧ m = mkDesktopOnly dr) ∨
      (∃ mr, mr ∈ mob ∧ m = mkMobileOnly mr) := by
  unfold mergeOuter at hm
  rcases List.mem_append.mp hm with h | h
  · rw [List.mem_flatten] at h
    obtain ⟨l, hl, hml⟩ := h
    rw [List.mem_map] at hl
    obtain ⟨dr, hdr, rfl⟩ := hl
    by_cases he : (mob.filter (fun mr => mr.url = dr.url)).isEmpty
    · rw [if_pos he, List.mem_singleton] at hml
      exact Or.inr (Or.inl ⟨dr, hdr, hml⟩)
    · rw [if_neg he, List.mem_map] at hml
      obtain ⟨mr, hmr, rfl⟩ := hml
      exact Or.inl ⟨dr, mr, hdr, List.mem_of_mem_filter hmr, rfl⟩
  · rw [List.mem_map] at h
    obtain ⟨mr, hmr, rfl⟩ := h
    exact Or.inr (Or.inr ⟨mr, List.mem_of_mem_filter hmr, rfl⟩)

/-- C3: for every record of the device merge, `all_green = true` forces all
six metrics to be present and `>= 75`; `all_green = false` means some present
metric is `< 75` or one device's columns are entirely absent (its rows are
missing for that URL); and a URL with data for only one device always gets
`all_green = false`. -/
theorem merged_all_green_policy (rows : List RawRow) (m : MergedRow)
    (hm : m ∈ mergedRecords rows) :
    (all_green m = true →
        (∃ v, m.desktop_inp = some v ∧ 75 ≤ v) ∧
        (∃ v, m.desktop_cls = some v ∧ 75 ≤ v) ∧
        (∃ v, m.desktop_lcp = some v ∧ 75 ≤ v) ∧
        (∃ v, m.mobile_inp = some v ∧ 75 ≤ v) ∧
        (∃ v, m.mobile_cls = some v ∧ 75 ≤ v) ∧
        (∃ v, m.mobile_lcp = some v ∧ 75 ≤ v)) ∧
      (all_green m = false →
        (∃ v, (m.desktop_inp = some v ∨ m.desktop_cls = some v ∨ m.desktop_lcp = some v ∨
            m.mobile_inp = some v ∨ m.mobile_cls = some v ∨ m.mobile_lcp = some v) ∧ v < 75) ∨
          (m.desktop_inp = none ∧ m.desktop_cls = none ∧ m.desktop_lcp = none) ∨
          (m.mobile_inp = none ∧ m.mobile_cls = none ∧ m.mobile_lcp = none)) ∧
      ((m.desktop_inp = none ∨ m.mobile_inp = none) → all_green m = false) := by
  rcases mem_mergeOuter_shape _ _ m hm with ⟨dr, mr, _, _, rfl⟩ | ⟨dr, _, rfl⟩ | ⟨mr, _, rfl⟩
  · refine ⟨?_, ?_, ?_⟩
    · intro htrue
      simp only [all_green, mkBoth, geOpt, Bool.and_eq_true, decide_eq_true_eq] at htrue
      obtain ⟨⟨⟨⟨⟨h1, h2⟩, h3⟩, h4⟩, h5⟩, h6⟩ := htrue
      exact ⟨⟨dr.inp, rfl, h1⟩, ⟨dr.cls, rfl, h2⟩, ⟨dr.lcp, rfl, h3⟩,
        ⟨mr.inp, rfl, h4⟩, ⟨mr.cls, rfl, h5⟩, ⟨mr.lcp, rfl, h6⟩⟩
    · intro hfalse
      rcases lt_or_le dr.inp 75 with h1 | h1
      · exact Or.inl ⟨dr.inp, Or.inl rfl, h1⟩
      rcases lt_or_le dr.cls 75 with h2 | h2
      · exact Or.inl ⟨dr.cls, Or.inr (Or.inl rfl), h2⟩
      rcases lt_or_le dr.lcp 75 with h3 | h3
      · exact Or.inl ⟨dr.lcp, Or.inr (Or.inr (Or.inl rfl)), h3⟩
      rcases lt_or_le mr.inp 75 with h4 | h4
      · exact Or.inl ⟨mr.inp, Or.inr (Or.inr (Or.inr (Or.inl rfl))), h4⟩
      rcases lt_or_le mr.cls 75 with h5 | h5
      · exact Or.inl ⟨mr.cls, Or.inr (Or.inr (Or.inr (Or.inr (Or.inl rfl)))), h5⟩
      rcases lt_or_le mr.lcp 75 with h6 | h6
      · exact Or.inl ⟨mr.lcp, Or.inr (Or.inr (Or.inr (Or.inr (Or.inr rfl)))), h6⟩
      · exfalso
        simp [all_green, mkBoth, geOpt, h1, h2, h3, h4, h5, h6] at hfalse
    · rintro (hnone | hnone) <;> simp [mkBoth] at hnone
  · refine ⟨?_, ?_, ?_⟩
    · intro htrue
      simp [all_green, mkDesktopOnly, geOpt] at htrue
    · intro _
      exact Or.inr (Or.inr ⟨rfl, rfl, rfl⟩)
    · intro _
      simp [all_green, mkDesktopOnly, geOpt]
  · refine ⟨?_, ?_, ?_⟩
    · intro htrue
      simp [all_green, mkMobileOnly, geOpt] at htrue
    · intro _
      exact Or.inr (Or.inl ⟨rfl, rfl, rfl⟩)
    · intro _
      simp [all_green, mkMobileOnly, geOpt]

/-- Witness for `merged_all_green_policy`: a URL with only a desktop row is
classified `all_green = false`. -/
theorem merged_all_green_policy_witness :
    all_green (mkDesktopOnly (exRow "2024-01-01" "a.com" "desktop" 80 80 80)) = false :=
  (merged_all_green_policy [exRow "2024-01-01" "a.com" "desktop" 80 80 80]
      (mkDesktopOnly (exRow "2024-01-01" "a.com" "desktop" 80 80 80))
      (by decide)).2.2 (Or.inr rfl)

/-! ### The string order is a linear order -/

theorem charsLt_asymm (x : List Char) :
    ∀ y, charsLt x y = true → charsLt y x = false := by
  induction x with
  | nil =>
    intro y h
    cases y with
    | nil => simp [charsLt] at h
    | cons b bs => simp [charsLt]
  | cons a as ih =>
    intro y h
    cases y with
    | nil => simp [charsLt] at h
    | cons b bs =>
      simp only [charsLt] at h ⊢
      by_cases h1 : a.toNat < b.toNat
      · have h2 : ¬ b.toNat < a.toNat := by omega
        rw [if_neg h2, if_pos h1]
      · by_cases h2 : b.toNat < a.toNat
        · rw [if_neg h1, if_pos h2] at h
          cases h
        · rw [if_neg h1, if_neg h2] at h
          rw [if_neg h2, if_neg h1]
          exact ih bs h

theorem charsLt_eq_of_not_lt (x : List Char) :
    ∀ y, charsLt x y = false → charsLt y x = false → x = y := by
  induction x with
  | nil =>
    intro y hxy _
    cases y with
    | nil => rfl
    | cons b bs => simp [charsLt] at hxy
  | cons a as ih =>
    intro y hxy hyx
    cases y with
    | nil => simp [charsLt] at hyx
    | cons b bs =>
      simp only [charsLt] at hxy hyx
      by_cases h1 : a.toNat < b.toNat
      · rw [if_pos h1] at hxy
        cases hxy
      · by_cases h2 : b.toNat < a.toNat
        · rw [if_pos h2] at hyx
          cases hyx
        · rw [if_neg h1, if_neg h2] at hxy
          rw [if_neg h2, if_neg h1] at hyx
          have hab : a = b := by
            have : a.toNat = b.toNat := by omega
            exact Char.ext (UInt32.ext this)
          rw [hab, ih bs hxy hyx]

theorem charsLt_trans (x : List Char) :
    ∀ y z, charsLt x y = true → charsLt y z = true → charsLt x z = true := by
  induction x with
  | nil =>
    intro y z hxy hyz
    cases z with
    | nil =>
      cases y with
      | nil => exact hxy
      | cons b bs => simp [charsLt] at hyz
    | cons c cs => simp [charsLt]
  | cons a as ih =>
    intro y z hxy hyz
    cases y with
    | nil => simp [charsLt] at hxy
    | cons b bs =>
      cases z with
      | nil => simp [charsLt] at hyz
      | cons c cs =>
        simp only [charsLt] at hxy hyz ⊢
        by_cases hab : a.toNat < b.toNat
        · by_cases hbc : b.toNat < c.toNat
          · rw [if_pos (by omega : a.toNat < c.toNat)]
          · by_cases hcb : c.toNat < b.toNat
            · rw [if_neg hbc, if_pos hcb] at hyz
              cases hyz
            · have : b.toNat = c.toNat := by omega
              rw [if_pos (by omega : a.toNat < c.toNat)]
        · by_cases hba : b.toNat < a.toNat
          · rw [if_neg hab, if_pos hba] at hxy
            cases hxy
          · have hab2 : a.toNat = b.toNat := by omega
            rw [if_neg hab, if_neg hba] at hxy
            by_cases hbc : b.toNat < c.toNat
            · rw [if_pos (by omega : a.toNat < c.toNat)]
            · by_cases hcb : c.toNat < b.toNat
              · rw [if_neg hbc, if_pos hcb] at hyz
                cases hyz
              · rw [if_neg hbc, if_neg hcb] at hyz
                rw [if_neg (by omega : ¬ a.toNat < c.toNat),
                  if_neg (by omega : ¬ c.toNat < a.toNat)]
                exact ih bs cs hxy hyz

theorem strLE_total (a b : String) : strLE a b = true ∨ strLE b a = true := by
  unfold strLE
  by_cases h : strLt b a = true
  · right
    unfold strLt at h ⊢
    rw [charsLt_asymm _ _ h]
    rfl
  · left
    rw [Bool.not_eq_true] at h
    rw [h]
    rfl

theorem strLE_trans (a b c : String) (hab : strLE a b = true) (hbc : strLE b c = true) :
    strLE a c = true := by
  unfold strLE strLt at hab hbc ⊢
  rw [Bool.not_eq_eq_eq_not, Bool.not_true] at hab hbc ⊢
  by_cases hca : charsLt c.data a.data = true
  · exfalso
    by_cases hbcd : charsLt b.data c.data = true
    · have := charsLt_trans _ _ _ hbcd hca
      rw [this] at hab
      cases hab
    · rw [Bool.not_eq_true] at hbcd
      have : b.data = c.data := charsLt_eq_of_not_lt _ _ hbcd hbc
      rw [← this] at hca
      rw [hca] at hab
      cases hab
  · rw [Bool.not_eq_true] at hca
    exact hca

theorem sortMerged_sorted (rows : List RawRow) :
    List.Sorted mergedLE (sortMerged rows) := by
  haveI : IsTotal MergedRow mergedLE := by
    constructor
    intro a b
    rcases Nat.lt_trichotomy (greenRank a) (greenRank b) with h | h | h
    · exact Or.inl (Or.inl h)
    · rcases strLE_total a.url b.url with hu | hu
      · exact Or.inl (Or.inr ⟨h, hu⟩)
      · exact Or.inr (Or.inr ⟨h.symm, hu⟩)
    · exact Or.inr (Or.inl h)
  haveI : IsTrans MergedRow mergedLE := by
    constructor
    intro a b c hab hbc
    rcases hab with h₁ | ⟨h₁, hu₁⟩
    · rcases hbc with h₂ | ⟨h₂, _⟩
      · exact Or.inl (h₁.trans h₂)
      · exact Or.inl (h₂ ▸ h₁)
    · rcases hbc with h₂ | ⟨h₂, hu₂⟩
      · exact Or.inl (h₁ ▸ h₂)
      · exact Or.inr ⟨h₁.trans h₂, strLE_trans _ _ _ hu₁ hu₂⟩
  exact List.sorted_insertionSort mergedLE (mergedRecords rows)

/-- C4 counterexample: on `mixedSlice` the sorted merge output places the
passing domain `b.com` at position 0 and the failing domain `a.com` at
position 1, refuting the claim that for `i < j` either record `i` fails while
record `j` passes, or the two share a status with URLs ascending. -/
theorem sortMerged_failing_first_counterexample :
    ¬ (∀ (i j : ℕ) (hi : i < (sortMerged mixedSlice).length)
          (hj : j < (sortMerged mixedSlice).length), i < j →
        (all_green ((sortMerged mixedSlice).get ⟨i, hi⟩) = false ∧
            all_green ((sortMerged mixedSlice).get ⟨j, hj⟩) = true) ∨
          (all_green ((sortMerged mixedSlice).get ⟨i, hi⟩) =
              all_green ((sortMerged mixedSlice).get ⟨j, hj⟩) ∧
            strLE ((sortMerged mixedSlice).get ⟨i, hi⟩).url
              ((sortMerged mixedSlice).get ⟨j, hj⟩).url = true)) := by
  intro hcl
  have h01 := hcl 0 1 (by decide) (by decide) (by decide)
  revert h01
  decide

/-- C4 (amended): the merged-record sequence is sorted so that passing
domains (`all_green = true`) come first and, within each status group, URLs
ascend: for every input slice and positions `i < j`, either record `i` passes
while record `j` fails, or the two share a status and record `i`'s URL is at
most record `j`'s. -/
theorem sortMerged_green_first (rows : List RawRow) (i j : ℕ)
    (hi : i < (sortMerged rows).length) (hj : j < (sortMerged rows).length)
    (hij : i < j) :
    (all_green ((sortMerged rows).get ⟨i, hi⟩) = true ∧
        all_green ((sortMerged rows).get ⟨j, hj⟩) = false) ∨
      (all_green ((sortMerged rows).get ⟨i, hi⟩) =
          all_green ((sortMerged rows).get ⟨j, hj⟩) ∧
        strLE ((sortMerged rows).get ⟨i, hi⟩).url
          ((sortMerged rows).get ⟨j, hj⟩).url = true) := by
  have hs := sortMerged_sorted rows
  have hrel := hs.rel_get_of_lt (a := ⟨i, hi⟩) (b := ⟨j, hj⟩) (Fin.mk_lt_mk.mpr hij)
  simp only [List.get_eq_getElem] at hrel ⊢
  rcases hrel with h | ⟨heq, hurl⟩
  · left
    cases hgi : all_green (sortMerged rows)[i] <;>
      cases hgj : all_green (sortMerged rows)[j] <;>
      simp [greenRank, hgi, hgj] at h ⊢
  · right
    refine ⟨?_, hurl⟩
    cases hgi : all_green (sortMerged rows)[i] <;>
      cases hgj : all_green (sortMerged rows)[j] <;>
      simp [greenRank, hgi, hgj] at heq ⊢

/-- Witness for `sortMerged_green_first` on `mixedSlice`: position 0 passes
and position 1 fails. -/
theorem sortMerged_green_first_witness :
    (all_green ((sortMerged mixedSlice).get ⟨0, by decide⟩) = true ∧
        all_green ((sortMerged mixedSlice).get ⟨1, by decide⟩) = false) ∨
      (all_green ((sortMerged mixedSlice).get ⟨0, by decide⟩) =
          all_green ((sortMerged mixedSlice).get ⟨1, by decide⟩) ∧
        strLE ((sortMerged mixedSlice).get ⟨0, by decide⟩).url
          ((sortMerged mixedSlice).get ⟨1, by decide⟩).url = true) :=
  sortMerged_green_first mixedSlice 0 1 (by decide) (by decide) (by decide)

/-! ### Outer-join counting facts -/

theorem length_filter_eq_count_map {α : Type} (l : List α) (f : α → String) (u : String) :
    (l.filter (fun x => f x = u)).length = (l.map f).count u := by
  induction l with
  | nil => rfl
  | cons x l ih =>
    simp only [List.filter_cons, List.map_cons, List.count_cons]
    by_cases h : f x = u
    · simp [h, ih]
    · simp [h, ih, fun hh : u = f x => h hh.symm]

theorem urls_nodup_of_rowkey_nodup (rows : List RawRow) (dm dev : String)
    (H : (rows.map (fun r => (r.date, r.url, r.device))).Nodup) :
    ((rows.filter (fun r => r.date = dm ∧ r.device = dev)).map (fun r => r.url)).Nodup := by
  induction rows with
  | nil => simp
  | cons r rows ih =>
    rw [List.map_cons, List.nodup_cons] at H
    obtain ⟨Hhead, Htail⟩ := H
    simp only [List.filter_cons]
    by_cases hc : r.date = dm ∧ r.device = dev
    · rw [if_pos (by simpa using hc), List.map_cons, List.nodup_cons]
      refine ⟨?_, ih Htail⟩
      intro hmem
      rw [List.mem_map] at hmem
      obtain ⟨r', hr', hurl⟩ := hmem
      have hr'mem : r' ∈ rows := List.mem_of_mem_filter hr'
      have hr'cond := List.of_mem_filter hr'
      simp only [decide_eq_true_eq] at hr'cond
      apply Hhead
      rw [List.mem_map]
      refine ⟨r', hr'mem, ?_⟩
      rw [hr'cond.1, hr'cond.2, hurl, hc.1, hc.2]
    · rw [if_neg (by simpa using hc)]
      exact ih Htail

theorem nodup_subset_le_dedup_length (l l' : List String) (hn : l.Nodup) (hsub : l ⊆ l') :
    l.length ≤ l'.dedup.length := by
  have h1 : l.toFinset.card = l.length := List.toFinset_card_of_nodup hn
  have h2 : l.toFinset ⊆ l'.toFinset := by
    intro a ha
    rw [List.mem_toFinset] at ha ⊢
    exact hsub ha
  calc l.length = l.toFinset.card := h1.symm
    _ ≤ l'.toFinset.card := Finset.card_le_card h2
    _ = l'.dedup.length := List.card_toFinset l'

theorem mergeOuter_map_url (des mob : List RawRow)
    (hm : (mob.map (fun r => r.url)).Nodup) :
    (mergeOuter des mob).map (fun m => m.url) =
      des.map (fun r => r.url) ++
        (mob.filter (fun mr => !des.any (fun dr => dr.url = mr.url))).map
          (fun r => r.url) := by
  unfold mergeOuter
  rw [List.map_append]
  congr 1
  · induction des with
    | nil => simp
    | cons dr des ih =>
      simp only [List.map_cons, List.flatten_cons, List.map_append]
      rw [ih]
      by_cases he : (mob.filter (fun mr => mr.url = dr.url)).isEmpty
      · rw [if_pos he]
        rfl
      · rw [if_neg he]
        have hlen1 : (mob.filter (fun mr => mr.url = dr.url)).length = 1 := by
          have hle : (mob.filter (fun mr => mr.url = dr.url)).length ≤ 1 := by
            rw [length_filter_eq_count_map mob (fun r => r.url) dr.url]
            exact List.nodup_iff_count_le_one.mp hm dr.url
          have hpos : 0 < (mob.filter (fun mr => mr.url = dr.url)).length := by
            rcases Nat.eq_zero_or_pos (mob.filter (fun mr => mr.url = dr.url)).length
              with h0 | hpos
            · exfalso
              apply he
              rw [List.isEmpty_iff]
              exact List.length_eq_zero.mp h0
            · exact hpos
          omega
        obtain ⟨x, hx⟩ := List.length_eq_one.mp hlen1
        rw [hx]
        simp [mkBoth]
  · rw [List.map_map]
    rfl

theorem desktop_data_urls_nodup (rows : List RawRow)
    (H : (rows.map (fun r => (r.date, r.url, r.device))).Nodup) :
    ((desktop_data rows).map (fun r => r.url)).Nodup := by
  unfold desktop_data
  cases latest_date rows with
  | none => simp
  | some dm => exact urls_nodup_of_rowkey_nodup rows dm "desktop" H

theorem mobile_data_urls_nodup (rows : List RawRow)
    (H : (rows.map (fun r => (r.date, r.url, r.device))).Nodup) :
    ((mobile_data rows).map (fun r => r.url)).Nodup := by
  unfold mobile_data
  cases latest_date rows with
  | none => simp
  | some dm => exact urls_nodup_of_rowkey_nodup rows dm "mobile" H

theorem desktop_data_subset (rows : List RawRow) :
    ∀ r ∈ desktop_data rows, r ∈ rows := by
  unfold desktop_data
  cases latest_date rows with
  | none => intro r hr; cases hr
  | some dm => exact fun r hr => List.mem_of_mem_filter hr

theorem mobile_data_subset (rows : List RawRow) :
    ∀ r ∈ mobile_data rows, r ∈ rows := by
  unfold mobile_data
  cases latest_date rows with
  | none => intro r hr; cases hr
  | some dm => exact fun r hr => List.mem_of_mem_filter hr

theorem count_eq_one_of_nodup_mem (l : List String) (hn : l.Nodup) (u : String)
    (hu : u ∈ l) : l.count u = 1 := by
  have h1 := List.nodup_iff_count_le_one.mp hn u
  have h2 : 0 < l.count u := List.count_pos_iff.mpr hu
  omega

/-- C8: the device merge is a full outer join on URL.  Under the data-model
invariant that (date, url, device) identifies a row, the merged output has at
most as many records as there are distinct URLs in the input slice, and every
URL present in the desktop subset or the mobile subset appears in exactly one
output record. -/
theorem mergeByUrl_outer_join (rows : List RawRow)
    (H : (rows.map (fun r => (r.date, r.url, r.device))).Nodup) :
    (mergedRecords rows).length ≤ ((rows.map (fun r => r.url)).dedup).length ∧
      ∀ u, (u ∈ (desktop_data rows).map (fun r => r.url) ∨
            u ∈ (mobile_data rows).map (fun r => r.url)) →
        ((mergedRecords rows).filter (fun m => m.url = u)).length = 1 := by
  have HD := desktop_data_urls_nodup rows H
  have HM := mobile_data_urls_nodup rows H
  have hmap := mergeOuter_map_url (desktop_data rows) (mobile_data rows) HM
  have hMonlyN :
      (((mobile_data rows).filter
          (fun mr => !(desktop_data rows).any (fun dr => dr.url = mr.url))).map
        (fun r => r.url)).Nodup := by
    have hsub :
        (((mobile_data rows).filter
            (fun mr => !(desktop_data rows).any (fun dr => dr.url = mr.url))).map
          (fun r => r.url)).Sublist ((mobile_data rows).map (fun r => r.url)) :=
      (List.filter_sublist _).map _
    exact List.Nodup.sublist hsub HM
  have hdisj : ∀ u ∈ (desktop_data rows).map (fun r => r.url),
      u ∉ ((mobile_data rows).filter
          (fun mr => !(desktop_data rows).any (fun dr => dr.url = mr.url))).map
        (fun r => r.url) := by
    intro u hu hmem
    obtain ⟨mr, hmr, humr⟩ := List.mem_map.mp hmem
    have hfilt := List.of_mem_filter hmr
    rw [Bool.not_eq_true'] at hfilt
    obtain ⟨dr, hdr, hdru⟩ := List.mem_map.mp hu
    have hany : (desktop_data rows).any (fun dr => dr.url = mr.url) = true := by
      rw [List.any_eq_true]
      exact ⟨dr, hdr, by rw [decide_eq_true_eq, hdru, humr]⟩
    rw [hany] at hfilt
    cases hfilt
  have hsubset :
      ((desktop_data rows).map (fun r => r.url) ++
          ((mobile_data rows).filter
              (fun mr => !(desktop_data rows).any (fun dr => dr.url = mr.url))).map
            (fun r => r.url)) ⊆ rows.map (fun r => r.url) := by
    intro u hu
    rcases List.mem_append.mp hu with hul | hur
    · obtain ⟨dr, hdr, rfl⟩ := List.mem_map.mp hul
      exact List.mem_map_of_mem _ (desktop_data_subset rows dr hdr)
    · obtain ⟨mr, hmr, rfl⟩ := List.mem_map.mp hur
      exact List.mem_map_of_mem _
        (mobile_data_subset rows mr (List.mem_of_mem_filter hmr))
  have hnodup :
      ((desktop_data rows).map (fun r => r.url) ++
          ((mobile_data rows).filter
              (fun mr => !(desktop_data rows).any (fun dr => dr.url = mr.url))).map
            (fun r => r.url)).Nodup :=
    List.nodup_append.mpr ⟨HD, hMonlyN, hdisj⟩
  constructor
  · have hlen : (mergedRecords rows).length =
        ((desktop_data rows).map (fun r => r.url) ++
            ((mobile_data rows).filter
                (fun mr => !(desktop_data rows).any (fun dr => dr.url = mr.url))).map
              (fun r => r.url)).length := by
      have := congrArg List.length hmap
      rw [List.length_map] at this
      exact this
    rw [hlen]
    exact nodup_subset_le_dedup_length _ _ hnodup hsubset
  · intro u hu
    rw [length_filter_eq_count_map (mergedRecords rows) (fun m => m.url) u]
    unfold mergedRecords
    rw [hmap, List.count_append]
    by_cases hud : u ∈ (desktop_data rows).map (fun r => r.url)
    · have h1 := count_eq_one_of_nodup_mem _ HD u hud
      have h2 :
          (((mobile_data rows).filter
              (fun mr => !(desktop_data rows).any (fun dr => dr.url = mr.url))).map
            (fun r => r.url)).count u = 0 := by
        rw [List.count_eq_zero]
        exact hdisj u hud
      rw [h1, h2]
    · rcases hu with hu | hu
      · exact absurd hu hud
      · have h1 : ((desktop_data rows).map (fun r => r.url)).count u = 0 := by
          rw [List.count_eq_zero]
          exact hud
        obtain ⟨mr, hmr, humr⟩ := List.mem_map.mp hu
        have hpass : mr ∈ (mobile_data rows).filter
            (fun mr => !(desktop_data rows).any (fun dr => dr.url = mr.url)) := by
          rw [List.mem_filter]
          refine ⟨hmr, ?_⟩
          rw [Bool.not_eq_true']
          rw [← Bool.not_eq_true]
          intro hany
          obtain ⟨dr, hdr, hdru⟩ := List.any_eq_true.mp hany
          rw [decide_eq_true_eq] at hdru
          apply hud
          rw [List.mem_map]
          exact ⟨dr, hdr, by rw [hdru, humr]⟩
        have h2 := count_eq_one_of_nodup_mem _ hMonlyN u
          (by rw [List.mem_map]; exact ⟨mr, hpass, humr⟩)
        rw [h1, h2]

/-- Witness for `mergeByUrl_outer_join`: on `mixedSlice`, `a.com` (present in
both device subsets) appears in exactly one merged record. -/
theorem mergeByUrl_outer_join_witness :
    ((mergedRecords mixedSlice).filter (fun m => m.url = "a.com")).length = 1 :=
  (mergeByUrl_outer_join mixedSlice (by decide)).2 "a.com" (Or.inl (by decide))

/-! ### Fault propagation -/

theorem storeHasDate_processFGo_mono (rows : List RawRow) (wfails : String → Bool)
    (ds : List String) (s : Store) (d : String) (h : storeHasDate s d = true) :
    storeHasDate (processFGo rows wfails ds s).1 d = true := by
  induction ds generalizing s with
  | nil => exact h
  | cons d' ds ih =>
    simp only [processFGo]
    by_cases h1 : storeHasDate s d' = true
    · rw [if_pos h1]
      exact ih _ h
    · rw [if_neg h1]
      by_cases h2 : wfails d' = true
      · rw [if_pos h2]
        exact h
      · rw [if_neg h2]
        apply ih
        rw [storeHasDate_append, h, Bool.true_or]

theorem processFGo_failure (rows : List RawRow) (wfails : String → Bool)
    (ds : List String) (s : Store) (d : String)
    (hsnd : (processFGo rows wfails ds s).2 = some d) :
    wfails d = true ∧ storeHasDate (processFGo rows wfails ds s).1 d = false ∧
      ∀ d', storeHasDate (processFGo rows wfails ds s).1 d' = true →
        storeHasDate s d' = true ∨ d' ∈ ds.takeWhile (fun x => x ≠ d) := by
  induction ds generalizing s with
  | nil => simp [processFGo] at hsnd
  | cons d₀ ds ih =>
    simp only [processFGo] at hsnd ⊢
    by_cases h1 : storeHasDate s d₀ = true
    · rw [if_pos h1] at hsnd ⊢
      obtain ⟨hw, hno, hsub⟩ := ih _ hsnd
      have hne : d₀ ≠ d := by
        rintro rfl
        have := storeHasDate_processFGo_mono rows wfails ds s d₀ h1
        rw [this] at hno
        cases hno
      refine ⟨hw, hno, ?_⟩
      intro d' hd'
      rcases hsub d' hd' with hl | hr
      · exact Or.inl hl
      · right
        rw [List.takeWhile_cons, if_pos (by simpa using hne)]
        exact List.mem_cons_of_mem _ hr
    · rw [if_neg h1] at hsnd ⊢
      by_cases h2 : wfails d₀ = true
      · rw [if_pos h2] at hsnd ⊢
        have hd : d₀ = d := by
          injection hsnd
        subst hd
        refine ⟨h2, ?_, ?_⟩
        · cases hb : storeHasDate s d₀ with
          | false => exact rfl
          | true => exact absurd hb h1
        · intro d' hd'
          exact Or.inl hd'
      · rw [if_neg h2] at hsnd ⊢
        obtain ⟨hw, hno, hsub⟩ := ih _ hsnd
        have hs' : storeHasDate
            (s ++ [(d₀, rows.filter (fun r => r.date = d₀))]) d₀ = true := by
          rw [storeHasDate_append, Bool.or_eq_true]
          right
          simp [storeHasDate]
        have hne : d₀ ≠ d := by
          rintro rfl
          have := storeHasDate_processFGo_mono rows wfails ds _ d₀ hs'
          rw [this] at hno
          cases hno
        refine ⟨hw, hno, ?_⟩
        intro d' hd'
        rcases hsub d' hd' with hl | hr
        · rw [storeHasDate_append, Bool.or_eq_true] at hl
          rcases hl with hsl | hnew
          · exact Or.inl hsl
          · have hd0 : d₀ = d' := by
              simpa [storeHasDate] using hnew
            right
            rw [List.takeWhile_cons, if_pos (by simpa using hne)]
            rw [← hd0]
            exact List.mem_cons_self _ _
        · right
          rw [List.takeWhile_cons, if_pos (by simpa using hne)]
          exact List.mem_cons_of_mem _ hr

theorem loadFGo_error (pfails : String → Bool) (s : Store) (acc : List (List RawRow))
    (hfail : ∃ p ∈ s, pfails p.1 = true) :
    loadFGo pfails s acc = Except.error Err.parseError := by
  induction s generalizing acc with
  | nil =>
    obtain ⟨p, hp, _⟩ := hfail
    cases hp
  | cons q s ih =>
    simp only [loadFGo]
    by_cases h1 : pfails q.1 = true
    · rw [if_pos h1]
    · rw [if_neg h1]
      apply ih
      obtain ⟨p, hp, hpf⟩ := hfail
      rcases List.mem_cons.mp hp with rfl | hp
      · exact absurd hpf h1
      · exact ⟨p, hp, hpf⟩

/-- C9 counterexample: with the write of the 2024-01-01 slice failing,
archiving a two-date report into an empty store does not archive the
unaffected 2024-01-02 slice (the loop aborts); and with one of two slice
files failing to parse, the load returns no data at all (it aborts with the
parse failure instead of skipping the bad file). -/
theorem fault_isolation_counterexample :
    ¬ (storeHasDate
          (process_consolidated_fileF []
            [exRow "2024-01-01" "a.com" "desktop" 80 80 80,
             exRow "2024-01-02" "a.com" "desktop" 80 80 80]
            (fun d => d = "2024-01-01")).1 "2024-01-02" = true) ∧
      ∀ x, load_historical_dataF
          [("2024-01-01", [exRow "2024-01-01" "a.com" "desktop" 80 80 80]),
           ("2024-01-02", [exRow "2024-01-02" "a.com" "desktop" 80 80 80])]
          (fun d => d = "2024-01-01") ≠ Except.ok x := by
  constructor
  · decide
  · intro x h
    rw [show load_historical_dataF
        [("2024-01-01", [exRow "2024-01-01" "a.com" "desktop" 80 80 80]),
         ("2024-01-02", [exRow "2024-01-02" "a.com" "desktop" 80 80 80])]
        (fun d => d = "2024-01-01") = Except.error Err.parseError from rfl] at h
    cases h

/-- C9 (amended): failures are not isolated.  A failing slice write aborts
the archiving loop: the failing date is reported, its slice is absent, and
the only dates present afterwards are those already in the store or archived
strictly before the failure; and a single slice file that fails to parse
aborts the whole load with the parse failure. -/
theorem fault_aborts_processing (store : Store) (rows : List RawRow)
    (wfails pfails : String → Bool) (d : String) :
    ((process_consolidated_fileF store rows wfails).2 = some d →
        wfails d = true ∧
          storeHasDate (process_consolidated_fileF store rows wfails).1 d = false ∧
          ∀ d', storeHasDate (process_consolidated_fileF store rows wfails).1 d' = true →
            storeHasDate store d' = true ∨
              d' ∈ (uniqueDates rows).takeWhile (fun x => x ≠ d)) ∧
      ∀ s' : Store, (∃ p ∈ s', pfails p.1 = true) →
        load_historical_dataF s' pfails = Except.error Err.parseError := by
  constructor
  · intro hsnd
    exact processFGo_failure rows wfails (uniqueDates rows) store d hsnd
  · intro s' hfail
    exact loadFGo_error pfails s' [] hfail

/-- Witness for `fault_aborts_processing` at the concrete two-date report and
two-slice store. -/
theorem fault_aborts_processing_witness :
    storeHasDate
        (process_consolidated_fileF []
          [exRow "2024-01-01" "a.com" "desktop" 80 80 80,
           exRow "2024-01-02" "a.com" "desktop" 80 80 80]
          (fun d => d = "2024-01-01")).1 "2024-01-01" = false ∧
      load_historical_dataF
          [("2024-01-01", [exRow "2024-01-01" "a.com" "desktop" 80 80 80]),
           ("2024-01-02", [exRow "2024-01-02" "a.com" "desktop" 80 80 80])]
          (fun d => d = "2024-01-01") = Except.error Err.parseError :=
  ⟨((fault_aborts_processing []
      [exRow "2024-01-01" "a.com" "desktop" 80 80 80,
       exRow "2024-01-02" "a.com" "desktop" 80 80 80]
      (fun d => d = "2024-01-01") (fun d => d = "2024-01-01") "2024-01-01").1
        (by decide)).2.1,
   (fault_aborts_processing []
      [exRow "2024-01-01" "a.com" "desktop" 80 80 80,
       exRow "2024-01-02" "a.com" "desktop" 80 80 80]
      (fun d => d = "2024-01-01") (fun d => d = "2024-01-01") "2024-01-01").2
     [("2024-01-01", [exRow "2024-01-01" "a.com" "desktop" 80 80 80]),
      ("2024-01-02", [exRow "2024-01-02" "a.com" "desktop" 80 80 80])]
     (by decide)⟩
